import Mathlib

/-!
Shallow embedding of the copy-on-write (COW) object pool from
`src/servo/dom/cow.rs`.

Pointers are modelled as natural-number addresses; the payload heap is an
association list from addresses to payload values, so that allocation
(`calloc`/`malloc`) and deallocation (`free`) are explicit, observable
events.  Handles are indices into the pool's roster of cells
(`free_list` keeps the roster order, exactly as the source pushes every
new handle onto `self.d.free_list`).  A null handle / null pointer is
`Option.none`.

The event counters `allocs`/`frees` count payload allocations and frees
(the `calloc` in `Scope::clone` and `Scope::handle`, and the `free` calls
in `reader_joined` and `free_handle`); `cellAllocs`/`cellFrees` count
allocation and deallocation of the `HandleData` cell records themselves
(the `malloc` in `Scope::handle`; the source never frees a cell record).
-/

namespace Cow

/-- The `HandleData` record of `cow.rs`: reader pointer, writer pointer,
non-owning auxiliary pointer, and the intrusive dirty-list link.
Null pointers / null handles are `none`. -/
structure Cell where
  read_ptr : Nat
  write_ptr : Nat
  read_aux : Option Nat
  next_dirty : Option Nat
  deriving DecidableEq, Repr

/-- The `ScopeData` of `cow.rs` together with an explicit heap of payloads
and allocation/free event counters. -/
structure Pool (T : Type) where
  layout_active : Bool
  free_list : List Nat
  first_dirty : Option Nat
  cells : List Cell
  heap : List (Nat × T)
  next_addr : Nat
  allocs : Nat
  frees : Nat
  cellAllocs : Nat
  cellFrees : Nat
  deriving Repr

/-- `Scope()`: the freshly constructed pool. -/
def emptyPool (T : Type) : Pool T :=
  { layout_active := false, free_list := [], first_dirty := none, cells := [],
    heap := [], next_addr := 0, allocs := 0, frees := 0,
    cellAllocs := 0, cellFrees := 0 }

/-- Dereference an address in the payload heap. -/
def hLookup {T : Type} : List (Nat × T) → Nat → Option T
  | [], _ => none
  | (b, v) :: rest, a => if a = b then some v else hLookup rest a

/-- Overwrite the payload stored at an address (no-op on a dangling address). -/
def hSet {T : Type} : List (Nat × T) → Nat → T → List (Nat × T)
  | [], _, _ => []
  | (b, w) :: rest, a, v => if a = b then (b, v) :: rest else (b, w) :: hSet rest a v

/-- `free`: remove the payload stored at an address. -/
def hFree {T : Type} : List (Nat × T) → Nat → List (Nat × T)
  | [], _ => []
  | (b, w) :: rest, a => if a = b then rest else (b, w) :: hFree rest a

/-- `Scope::clone`: allocate a fresh payload initialized to a shallow copy of
the contents at address `a`; returns the new pool and the fresh address. -/
def Pool.clone {T : Type} (p : Pool T) (a : Nat) : Pool T × Nat :=
  match hLookup p.heap a with
  | some v =>
    ({ p with heap := (p.next_addr, v) :: p.heap, next_addr := p.next_addr + 1,
              allocs := p.allocs + 1 }, p.next_addr)
  | none => (p, p.next_addr)

/-- `Scope::handle(v)`: malloc a cell record, clone `v` into a fresh payload,
point both `read_ptr` and `write_ptr` at it, null `read_aux` and
`next_dirty`, and push the handle onto the pool's roster (`free_list`).
Returns the new handle (the cell's index). -/
def Pool.handle {T : Type} (p : Pool T) (v : T) : Pool T × Nat :=
  let a := p.next_addr
  let h := p.cells.length
  ({ p with
      heap := (a, v) :: p.heap,
      next_addr := a + 1,
      allocs := p.allocs + 1,
      cellAllocs := p.cellAllocs + 1,
      cells := p.cells ++ [⟨a, a, none, none⟩],
      free_list := p.free_list ++ [h] }, h)

/-- The payload value a reader observes through handle `h`: the contents at
the cell's `read_ptr`. -/
def readerView {T : Type} (p : Pool T) (h : Nat) : Option T :=
  match p.cells[h]? with
  | some c => hLookup p.heap c.read_ptr
  | none => none

/-- The payload value the writer observes through handle `h`: the contents at
the cell's `write_ptr`. -/
def writerView {T : Type} (p : Pool T) (h : Nat) : Option T :=
  match p.cells[h]? with
  | some c => hLookup p.heap c.write_ptr
  | none => none

/-- `Handle::read(f)`: invoke `f` on the reader-visible payload (through
`read_ptr`).  The state-transformer form makes explicit that the call
performs no mutation: the resulting pool is returned alongside `f`'s
value. -/
def handle_read {T U : Type} (p : Pool T) (h : Nat) (f : T → U) : Pool T × Option U :=
  (p, (readerView p h).map f)

/-- `Scope::read(h, f)`: invoke `f` on the writer-visible payload (through
`write_ptr`, which may be more up to date than `read_ptr` or may not). -/
def Pool.read {T U : Type} (p : Pool T) (h : Nat) (f : T → U) : Pool T × Option U :=
  (p, (writerView p h).map f)

/-- `Handle::has_aux()`: true if auxiliary data is associated with the
handle. -/
def has_aux {T : Type} (p : Pool T) (h : Nat) : Pool T × Bool :=
  (p, match p.cells[h]? with
      | some c => c.read_aux.isSome
      | none => false)

/-- `Scope::write(h, f)`: if the reader is active and the cell is clean
(`read_ptr == write_ptr`), clone the reader payload, point `write_ptr` at
the clone and splice the cell onto the front of the dirty list; then invoke
`f` on the payload at `write_ptr` (modelled as mutating it to `f v`). -/
def Pool.write {T : Type} (p : Pool T) (h : Nat) (f : T → T) : Pool T :=
  match p.cells[h]? with
  | none => p
  | some c =>
    let p1 :=
      if p.layout_active = true ∧ c.read_ptr = c.write_ptr then
        let pn := p.clone c.read_ptr
        { pn.1 with
            cells := pn.1.cells.set h ⟨c.read_ptr, pn.2, c.read_aux, p.first_dirty⟩,
            first_dirty := some h }
      else p
    match p1.cells[h]? with
    | some c1 =>
      match hLookup p1.heap c1.write_ptr with
      | some v => { p1 with heap := hSet p1.heap c1.write_ptr (f v) }
      | none => p1
    | none => p1

/-- `Scope::reader_forked()`: assert the pool is quiescent and the dirty list
empty, then mark the reader active.  A failed assertion aborts (`none`). -/
def Pool.reader_forked {T : Type} (p : Pool T) : Option (Pool T) :=
  if p.layout_active = true then none
  else if p.first_dirty.isSome then none
  else some { p with layout_active := true }

/-- The loop body of `reader_joined`: walk the dirty list.  For each cell,
free the old reader payload, set `read_ptr` to `write_ptr`, clear
`next_dirty`, and continue with the saved link.  `fuel` bounds the walk (a
well-formed dirty list is shorter than the roster). -/
def joinLoop {T : Type} : Nat → Pool T → Option Nat → Pool T
  | _, p, none => p
  | 0, p, some _ => p
  | fuel + 1, p, some i =>
    match p.cells[i]? with
    | none => p
    | some c =>
      let p1 := { p with
          heap := hFree p.heap c.read_ptr,
          frees := p.frees + 1,
          cells := p.cells.set i ⟨c.write_ptr, c.write_ptr, c.read_aux, none⟩ }
      joinLoop fuel p1 c.next_dirty

/-- `Scope::reader_joined()`: assert the reader is active; walk the dirty
list publishing every shadow payload; clear `first_dirty` and leave
reader-active mode.  A failed assertion aborts (`none`). -/
def Pool.reader_joined {T : Type} (p : Pool T) : Option (Pool T) :=
  if p.layout_active = true then
    let p1 := joinLoop p.cells.length p p.first_dirty
    some { p1 with first_dirty := none, layout_active := false }
  else none

/-- `free_handle(h)`: free the reader payload; free the writer payload only
when it is distinct from the reader payload.  The cell record itself is not
freed. -/
def free_handle {T : Type} (p : Pool T) (h : Nat) : Pool T :=
  match p.cells[h]? with
  | none => p
  | some c =>
    let p1 := { p with heap := hFree p.heap c.read_ptr, frees := p.frees + 1 }
    if c.write_ptr ≠ c.read_ptr then
      { p1 with heap := hFree p1.heap c.write_ptr, frees := p1.frees + 1 }
    else p1

/-- `ScopeResource`'s destructor: call `free_handle` on every handle on the
roster. -/
def dropPool {T : Type} (p : Pool T) : Pool T :=
  p.free_list.foldl free_handle p

/-- The handle after `i` on the dirty list. -/
def nextOf (cells : List Cell) (i : Nat) : Option Nat :=
  match cells[i]? with
  | some c => c.next_dirty
  | none => none

/-- The chain of handles reached from a dirty-list head by following
`next_dirty`, cut off at `fuel` steps. -/
def chainFrom (cells : List Cell) : Nat → Option Nat → List Nat
  | _, none => []
  | 0, some _ => []
  | fuel + 1, some i => i :: chainFrom cells fuel (nextOf cells i)

/-- The pool's dirty list, as the chain of handles starting at
`first_dirty`. -/
def dirtyChain {T : Type} (p : Pool T) : List Nat :=
  chainFrom p.cells p.cells.length p.first_dirty

/-- `ChainIs cells o ds`: starting from head `o` and following `next_dirty`,
one traverses exactly the handles `ds` and ends at the null handle. -/
inductive ChainIs (cells : List Cell) : Option Nat → List Nat → Prop where
  | nil : ChainIs cells none []
  | cons {i : Nat} {c : Cell} {ds : List Nat} :
      cells[i]? = some c → ChainIs cells c.next_dirty ds →
      ChainIs cells (some i) (i :: ds)

/-- The addresses a cell owns: its reader payload, plus its writer payload
when that is a distinct shadow. -/
def ownedPtrs (c : Cell) : List Nat :=
  if c.write_ptr = c.read_ptr then [c.read_ptr] else [c.read_ptr, c.write_ptr]

/-- All payload addresses owned by a roster of cells. -/
def allPtrs (cells : List Cell) : List Nat :=
  cells.flatMap ownedPtrs

/-- The well-formedness invariant of a pool, maintained by every operation:
heap keys are distinct and below the allocation watermark; distinct cells
own distinct payloads; every owned payload is allocated; clean cells are
unlinked; the dirty list enumerates exactly the dirty cells, and is empty
while quiescent. -/
structure Inv {T : Type} (p : Pool T) : Prop where
  keys_nodup : (p.heap.map Prod.fst).Nodup
  keys_lt : ∀ a ∈ p.heap.map Prod.fst, a < p.next_addr
  owned_nodup : (allPtrs p.cells).Nodup
  dom_read : ∀ c ∈ p.cells, (hLookup p.heap c.read_ptr).isSome
  dom_write : ∀ c ∈ p.cells, (hLookup p.heap c.write_ptr).isSome
  clean_next : ∀ c ∈ p.cells, c.write_ptr = c.read_ptr → c.next_dirty = none
  chain : ∃ ds, ChainIs p.cells p.first_dirty ds ∧
      (∀ i ∈ ds, ∃ c, p.cells[i]? = some c ∧ c.write_ptr ≠ c.read_ptr) ∧
      (∀ i c, p.cells[i]? = some c → c.write_ptr ≠ c.read_ptr → i ∈ ds)
  quiescent : p.layout_active = false → p.first_dirty = none

end Cow

namespace Cow

variable {T : Type}

theorem hLookup_isSome_iff (hp : List (Nat × T)) (a : Nat) :
    (hLookup hp a).isSome ↔ a ∈ hp.map Prod.fst := by
  induction hp with
  | nil => simp [hLookup]
  | cons kv rest ih =>
    obtain ⟨b, v⟩ := kv
    by_cases hab : a = b <;> simp [hLookup, hab, ih]

theorem hLookup_eq_none_of_not_mem (hp : List (Nat × T)) (a : Nat)
    (h : a ∉ hp.map Prod.fst) : hLookup hp a = none := by
  have := (hLookup_isSome_iff hp a).not.mpr h
  simpa [Option.not_isSome_iff_eq_none] using this

theorem hSet_keys (hp : List (Nat × T)) (a : Nat) (v : T) :
    (hSet hp a v).map Prod.fst = hp.map Prod.fst := by
  induction hp with
  | nil => rfl
  | cons kv rest ih =>
    obtain ⟨b, w⟩ := kv
    by_cases hab : a = b <;> simp [hSet, hab, ih]

theorem hLookup_hSet_ne (hp : List (Nat × T)) (a b : Nat) (v : T) (hne : b ≠ a) :
    hLookup (hSet hp a v) b = hLookup hp b := by
  induction hp with
  | nil => rfl
  | cons kv rest ih =>
    obtain ⟨k, w⟩ := kv
    by_cases hak : a = k
    · subst hak
      simp [hSet, hLookup, hne]
    · by_cases hbk : b = k <;> simp [hSet, hLookup, hak, hbk, ih]

theorem hLookup_hSet_self (hp : List (Nat × T)) (a : Nat) (v : T)
    (h : (hLookup hp a).isSome) : hLookup (hSet hp a v) a = some v := by
  induction hp with
  | nil => simp [hLookup] at h
  | cons kv rest ih =>
    obtain ⟨k, w⟩ := kv
    by_cases hak : a = k
    · simp [hSet, hLookup, hak]
    · simp [hSet, hLookup, hak] at h ⊢
      exact ih h

theorem hFree_keys (hp : List (Nat × T)) (a : Nat) :
    (hFree hp a).map Prod.fst = (hp.map Prod.fst).erase a := by
  induction hp with
  | nil => rfl
  | cons kv rest ih =>
    obtain ⟨k, w⟩ := kv
    by_cases hak : a = k
    · subst hak
      simp [hFree, List.erase_cons]
    · simp [hFree, hak, List.erase_cons, Ne.symm hak, ih]

theorem hLookup_hFree_ne (hp : List (Nat × T)) (a b : Nat) (hne : b ≠ a) :
    hLookup (hFree hp a) b = hLookup hp b := by
  induction hp with
  | nil => rfl
  | cons kv rest ih =>
    obtain ⟨k, w⟩ := kv
    by_cases hak : a = k
    · subst hak
      simp [hFree, hLookup, hne]
    · by_cases hbk : b = k <;> simp [hFree, hLookup, hak, hbk, ih]

theorem hLookup_hFree_self (hp : List (Nat × T)) (a : Nat)
    (hn : (hp.map Prod.fst).Nodup) : hLookup (hFree hp a) a = none := by
  induction hp with
  | nil => rfl
  | cons kv rest ih =>
    obtain ⟨k, w⟩ := kv
    simp only [List.map_cons, List.nodup_cons] at hn
    by_cases hak : a = k
    · subst hak
      simp only [hFree, if_pos rfl]
      exact hLookup_eq_none_of_not_mem rest a hn.1
    · simp [hFree, hLookup, hak, ih hn.2]

theorem list_decomp {α : Type} (l : List α) (i : Nat) (hi : i < l.length) :
    l = l.take i ++ l[i] :: l.drop (i + 1) := by
  conv_lhs => rw [← List.take_append_drop i l]
  rw [List.getElem_cons_drop]

theorem set_decomp {α : Type} (l : List α) (i : Nat) (a : α) (hi : i < l.length) :
    l.set i a = l.take i ++ a :: l.drop (i + 1) := by
  rw [List.set_eq_take_append_cons_drop, if_pos hi]

theorem allPtrs_append (l₁ l₂ : List Cell) :
    allPtrs (l₁ ++ l₂) = allPtrs l₁ ++ allPtrs l₂ := by
  simp [allPtrs]

theorem allPtrs_cons (c : Cell) (l : List Cell) :
    allPtrs (c :: l) = ownedPtrs c ++ allPtrs l := by
  simp [allPtrs]

end Cow

namespace Cow

theorem chainIs_det {cells : List Cell} {o : Option Nat} {l₁ l₂ : List Nat}
    (h₁ : ChainIs cells o l₁) (h₂ : ChainIs cells o l₂) : l₁ = l₂ := by
  induction h₁ generalizing l₂ with
  | nil => cases h₂; rfl
  | cons hget hrest ih =>
    cases h₂ with
    | cons hget' hrest' =>
      rw [hget] at hget'
      injection hget' with hc
      subst hc
      rw [ih hrest']

theorem chainIs_mem_suffix {cells : List Cell} {o : Option Nat} {ds : List Nat}
    (h : ChainIs cells o ds) {i : Nat} (hi : i ∈ ds) :
    ∃ tl, ChainIs cells (some i) (i :: tl) ∧ (i :: tl) <:+ ds := by
  induction h with
  | nil => cases hi
  | cons hget hrest ih =>
    rename_i j c ds'
    rcases List.mem_cons.mp hi with rfl | hmem
    · exact ⟨ds', ChainIs.cons hget hrest, List.suffix_refl _⟩
    · obtain ⟨tl, hc, hsuf⟩ := ih hmem
      exact ⟨tl, hc, hsuf.trans (List.suffix_cons j ds')⟩

theorem chainIs_nodup {cells : List Cell} {o : Option Nat} {ds : List Nat}
    (h : ChainIs cells o ds) : ds.Nodup := by
  induction h with
  | nil => exact List.nodup_nil
  | cons hget hrest ih =>
    rename_i i c ds'
    refine List.nodup_cons.mpr ⟨?_, ih⟩
    intro hmem
    obtain ⟨tl, hc, hsuf⟩ := chainIs_mem_suffix hrest hmem
    have hdet := chainIs_det hc (ChainIs.cons hget hrest)
    have hlen : (i :: tl).length ≤ ds'.length := hsuf.length_le
    rw [hdet] at hlen
    simp at hlen

theorem chainIs_mem_lt {cells : List Cell} {o : Option Nat} {ds : List Nat}
    (h : ChainIs cells o ds) : ∀ i ∈ ds, i < cells.length := by
  induction h with
  | nil => intro i hi; cases hi
  | cons hget hrest ih =>
    intro i hi
    rcases List.mem_cons.mp hi with rfl | hmem
    · exact (List.getElem?_eq_some.mp hget).1
    · exact ih i hmem

theorem chainIs_length_le {cells : List Cell} {o : Option Nat} {ds : List Nat}
    (h : ChainIs cells o ds) : ds.length ≤ cells.length := by
  have hsub : ds ⊆ List.range cells.length := fun i hi =>
    List.mem_range.mpr (chainIs_mem_lt h i hi)
  have hle := List.Subperm.length_le (List.subperm_of_subset (chainIs_nodup h) hsub)
  simpa using hle

theorem chainFrom_eq_of_chainIs {cells : List Cell} {o : Option Nat} {ds : List Nat}
    (h : ChainIs cells o ds) :
    ∀ fuel, ds.length ≤ fuel → chainFrom cells fuel o = ds := by
  induction h with
  | nil => intro fuel _; cases fuel <;> rfl
  | cons hget hrest ih =>
    rename_i i c ds'
    intro fuel hf
    cases fuel with
    | zero => simp at hf
    | succ f =>
      have hf' : ds'.length ≤ f := by simpa using hf
      simp only [chainFrom, nextOf, hget]
      rw [ih f hf']

theorem dirtyChain_eq {T : Type} (p : Pool T) {ds : List Nat}
    (h : ChainIs p.cells p.first_dirty ds) : dirtyChain p = ds :=
  chainFrom_eq_of_chainIs h p.cells.length (chainIs_length_le h)

theorem chainIs_set_of_not_mem {cells : List Cell} {o : Option Nat} {ds : List Nat}
    (h : ChainIs cells o ds) {i : Nat} {c' : Cell} (hi : i ∉ ds) :
    ChainIs (cells.set i c') o ds := by
  induction h with
  | nil => exact ChainIs.nil
  | cons hget hrest ih =>
    rename_i j c ds'
    have hne : i ≠ j := fun he => hi (he ▸ List.mem_cons_self j ds')
    refine ChainIs.cons ?_ (ih (fun hm => hi (List.mem_cons_of_mem _ hm)))
    rw [List.getElem?_set_ne hne]
    exact hget

theorem chainIs_append {cells : List Cell} {o : Option Nat} {ds : List Nat}
    (h : ChainIs cells o ds) (l : List Cell) : ChainIs (cells ++ l) o ds := by
  induction h with
  | nil => exact ChainIs.nil
  | cons hget hrest ih =>
    refine ChainIs.cons ?_ ih
    rw [List.getElem?_append]
    rw [if_pos (List.getElem?_eq_some.mp hget).1]
    exact hget

end Cow

namespace Cow

variable {T : Type}

/-- `Scope::write` on a clean cell while the reader is active: a fresh payload
is allocated at the watermark holding a copy of the reader value mutated by
`f`, the cell's `write_ptr` is pointed at it, and the cell is spliced onto
the front of the dirty list. -/
theorem write_clean_active (p : Pool T) (h : Nat) (f : T → T) (c : Cell) (v : T)
    (hc : p.cells[h]? = some c) (hact : p.layout_active = true)
    (hclean : c.read_ptr = c.write_ptr) (hv : hLookup p.heap c.read_ptr = some v) :
    p.write h f = { p with
      heap := (p.next_addr, f v) :: p.heap,
      next_addr := p.next_addr + 1,
      allocs := p.allocs + 1,
      cells := p.cells.set h ⟨c.read_ptr, p.next_addr, c.read_aux, p.first_dirty⟩,
      first_dirty := some h } := by
  have hlt : h < p.cells.length := (List.getElem?_eq_some.mp hc).1
  simp only [Pool.write, hc]
  rw [if_pos ⟨hact, hclean⟩]
  simp only [Pool.clone, hv]
  simp only [List.getElem?_set_self hlt]
  simp [hLookup, hSet]

/-- `Scope::write` when no copy is required (cell already dirty, or pool
quiescent): the payload at `write_ptr` is mutated in place and nothing else
changes. -/
theorem write_no_cow (p : Pool T) (h : Nat) (f : T → T) (c : Cell) (v : T)
    (hc : p.cells[h]? = some c)
    (hncow : ¬(p.layout_active = true ∧ c.read_ptr = c.write_ptr))
    (hv : hLookup p.heap c.write_ptr = some v) :
    p.write h f = { p with heap := hSet p.heap c.write_ptr (f v) } := by
  simp only [Pool.write, hc]
  rw [if_neg hncow]
  simp only [hc, hv]

/-- `Scope::write` on an out-of-roster handle leaves the pool unchanged
(dereferencing such a handle is undefined behaviour in the source; no
reachable state produces one). -/
theorem write_invalid (p : Pool T) (h : Nat) (f : T → T)
    (hc : p.cells[h]? = none) : p.write h f = p := by
  simp only [Pool.write, hc]

theorem hLookup_hSet_isSome (hp : List (Nat × T)) (a b : Nat) (v : T) :
    (hLookup (hSet hp a v) b).isSome = (hLookup hp b).isSome := by
  rw [Bool.eq_iff_iff, hLookup_isSome_iff, hLookup_isSome_iff, hSet_keys]

theorem hFree_lookup_none (hp : List (Nat × T)) (a b : Nat)
    (h : hLookup hp b = none) : hLookup (hFree hp a) b = none := by
  induction hp with
  | nil => rfl
  | cons kv rest ih =>
    obtain ⟨k, w⟩ := kv
    by_cases hbk : b = k
    · subst hbk
      simp [hLookup] at h
    · simp only [hLookup, if_neg hbk] at h
      by_cases hak : a = k
      · simpa [hFree, hak, hLookup, hbk] using h
      · simp [hFree, hak, hLookup, hbk, ih h]

theorem mem_ownedPtrs {c : Cell} {a : Nat} (ha : a ∈ ownedPtrs c) :
    a = c.read_ptr ∨ a = c.write_ptr := by
  unfold ownedPtrs at ha
  split at ha <;> simp at ha <;> tauto

theorem read_mem_ownedPtrs (c : Cell) : c.read_ptr ∈ ownedPtrs c := by
  unfold ownedPtrs
  split <;> simp

theorem write_mem_ownedPtrs (c : Cell) : c.write_ptr ∈ ownedPtrs c := by
  unfold ownedPtrs
  split <;> simp_all

/-- Every payload address owned by some cell of a well-formed pool is
allocated, hence below the watermark. -/
theorem owned_lt_next {p : Pool T} (hp : Inv p) :
    ∀ a ∈ allPtrs p.cells, a < p.next_addr := by
  intro a ha
  obtain ⟨c, hc, hca⟩ := List.mem_flatMap.mp ha
  have hsome : (hLookup p.heap a).isSome := by
    rcases mem_ownedPtrs hca with rfl | rfl
    · exact hp.dom_read c hc
    · exact hp.dom_write c hc
  exact hp.keys_lt a ((hLookup_isSome_iff p.heap a).mp hsome)

theorem owned_mem_allPtrs {cells : List Cell} {i : Nat} {c : Cell}
    (hc : cells[i]? = some c) : ∀ a ∈ ownedPtrs c, a ∈ allPtrs cells := by
  intro a ha
  obtain ⟨hlt, hget⟩ := List.getElem?_eq_some.mp hc
  exact List.mem_flatMap.mpr ⟨c, hget ▸ List.getElem_mem hlt, ha⟩

/-- Decomposition of the owned-address multiset around one cell. -/
theorem allPtrs_decomp {cells : List Cell} {i : Nat} {c : Cell}
    (hc : cells[i]? = some c) :
    allPtrs cells =
      allPtrs (cells.take i) ++ ownedPtrs c ++ allPtrs (cells.drop (i + 1)) := by
  obtain ⟨hlt, hget⟩ := List.getElem?_eq_some.mp hc
  conv_lhs => rw [list_decomp cells i hlt]
  rw [allPtrs_append, allPtrs_cons, hget, List.append_assoc]

/-- Decomposition of the owned-address multiset after replacing one cell. -/
theorem allPtrs_set_decomp {cells : List Cell} {i : Nat} (c' : Cell)
    (hlt : i < cells.length) :
    allPtrs (cells.set i c') =
      allPtrs (cells.take i) ++ ownedPtrs c' ++ allPtrs (cells.drop (i + 1)) := by
  rw [set_decomp cells i c' hlt, allPtrs_append, allPtrs_cons, List.append_assoc]

end Cow

namespace Cow

variable {T : Type}

theorem mem_of_getElem? {α : Type} {l : List α} {i : Nat} {a : α}
    (h : l[i]? = some a) : a ∈ l :=
  List.mem_iff_getElem?.mpr ⟨i, h⟩

theorem allPtrs_subset {l₁ l₂ : List Cell} (h : l₁ ⊆ l₂) :
    allPtrs l₁ ⊆ allPtrs l₂ := by
  intro a ha
  obtain ⟨c, hc, hca⟩ := List.mem_flatMap.mp ha
  exact List.mem_flatMap.mpr ⟨c, h hc, hca⟩

theorem owned_disjoint_lt {cells : List Cell} (hn : (allPtrs cells).Nodup)
    {i j : Nat} {ci cj : Cell} (hi : cells[i]? = some ci) (hj : cells[j]? = some cj)
    (hij : i < j) : ∀ a ∈ ownedPtrs ci, a ∉ ownedPtrs cj := by
  have hdecomp := allPtrs_decomp hi
  have hj' : (cells.drop (i + 1))[j - (i + 1)]? = some cj := by
    rw [List.getElem?_drop]
    have : i + 1 + (j - (i + 1)) = j := by omega
    rw [this]
    exact hj
  rw [allPtrs_decomp hj'] at hdecomp
  rw [hdecomp] at hn
  have hd := (List.nodup_append.mp hn).2.2
  intro a hai haj
  exact hd (List.mem_append.mpr (Or.inr hai))
    (List.mem_append.mpr (Or.inl (List.mem_append.mpr (Or.inr haj))))

/-- Distinct cells of a well-formed roster own disjoint payload addresses. -/
theorem owned_disjoint {cells : List Cell} (hn : (allPtrs cells).Nodup)
    {i j : Nat} {ci cj : Cell} (hi : cells[i]? = some ci) (hj : cells[j]? = some cj)
    (hij : i ≠ j) : ∀ a ∈ ownedPtrs ci, a ∉ ownedPtrs cj := by
  rcases Nat.lt_or_ge i j with hlt | hge
  · exact owned_disjoint_lt hn hi hj hlt
  · have hlt' : j < i := lt_of_le_of_ne hge (Ne.symm hij)
    intro a hai haj
    exact owned_disjoint_lt hn hj hi hlt' a haj hai

theorem inv_cell_ptr_lt {p : Pool T} (hp : Inv p) {c : Cell} (hc : c ∈ p.cells) :
    c.read_ptr < p.next_addr ∧ c.write_ptr < p.next_addr :=
  ⟨owned_lt_next hp _ (List.mem_flatMap.mpr ⟨c, hc, read_mem_ownedPtrs c⟩),
   owned_lt_next hp _ (List.mem_flatMap.mpr ⟨c, hc, write_mem_ownedPtrs c⟩)⟩

/-- The freshly constructed pool satisfies the invariant. -/
theorem inv_empty (T : Type) : Inv (emptyPool T) := by
  refine ⟨?_, ?_, ?_, ?_, ?_, ?_, ⟨[], ChainIs.nil, ?_, ?_⟩, ?_⟩ <;>
    simp [emptyPool, allPtrs]

/-- `Scope::handle` preserves the invariant. -/
theorem inv_handle {p : Pool T} (hp : Inv p) (v : T) : Inv (p.handle v).1 := by
  have hfresh : p.next_addr ∉ p.heap.map Prod.fst := fun hmem =>
    absurd (hp.keys_lt _ hmem) (lt_irrefl _)
  have hlook : ∀ b, b ≠ p.next_addr →
      hLookup ((p.next_addr, v) :: p.heap) b = hLookup p.heap b := by
    intro b hb
    simp [hLookup, hb]
  obtain ⟨ds, hchain, hdirty, hcomp⟩ := hp.chain
  simp only [Pool.handle]
  constructor
  case keys_nodup =>
    simp only [List.map_cons, List.nodup_cons]
    exact ⟨hfresh, hp.keys_nodup⟩
  case keys_lt =>
    intro a ha
    simp only [List.map_cons, List.mem_cons] at ha
    rcases ha with rfl | ha
    · exact Nat.lt_succ_self _
    · exact Nat.lt_succ_of_lt (hp.keys_lt a ha)
  case owned_nodup =>
    rw [allPtrs_append]
    have hone : allPtrs [(⟨p.next_addr, p.next_addr, none, none⟩ : Cell)] = [p.next_addr] := by
      simp [allPtrs, ownedPtrs]
    rw [hone, List.nodup_append]
    refine ⟨hp.owned_nodup, List.nodup_singleton _, ?_⟩
    intro a ha hmem
    simp only [List.mem_singleton] at hmem
    subst hmem
    exact absurd (owned_lt_next hp _ ha) (lt_irrefl _)
  case dom_read =>
    intro c hc
    rcases List.mem_append.mp hc with hc | hc
    · rw [hlook _ (Nat.ne_of_lt (inv_cell_ptr_lt hp hc).1)]
      exact hp.dom_read c hc
    · simp only [List.mem_singleton] at hc
      subst hc
      simp [hLookup]
  case dom_write =>
    intro c hc
    rcases List.mem_append.mp hc with hc | hc
    · rw [hlook _ (Nat.ne_of_lt (inv_cell_ptr_lt hp hc).2)]
      exact hp.dom_write c hc
    · simp only [List.mem_singleton] at hc
      subst hc
      simp [hLookup]
  case clean_next =>
    intro c hc
    rcases List.mem_append.mp hc with hc | hc
    · exact hp.clean_next c hc
    · simp only [List.mem_singleton] at hc
      subst hc
      intro
      rfl
  case chain =>
    refine ⟨ds, chainIs_append hchain _, ?_, ?_⟩
    · intro i hi
      obtain ⟨c, hgc, hdc⟩ := hdirty i hi
      refine ⟨c, ?_, hdc⟩
      rw [List.getElem?_append, if_pos (chainIs_mem_lt hchain i hi)]
      exact hgc
    · intro i c hgc hdc
      rw [List.getElem?_append] at hgc
      split at hgc
      · exact hcomp i c hgc hdc
      · rcases List.getElem?_eq_some.mp hgc with ⟨hlt, hval⟩
        simp only [List.length_singleton] at hlt
        interval_cases h : i - p.cells.length
        · simp at hval
          rw [← hval] at hdc
          simp at hdc
  case quiescent =>
    exact hp.quiescent

theorem reader_forked_some {p q : Pool T} (h : p.reader_forked = some q) :
    p.layout_active = false ∧ p.first_dirty = none ∧
      q = { p with layout_active := true } := by
  unfold Pool.reader_forked at h
  split at h
  · exact absurd h (by simp)
  · split at h
    · exact absurd h (by simp)
    · rename_i h1 h2
      refine ⟨by simpa using h1, by simpa using h2, (Option.some.inj h).symm⟩

/-- `Scope::reader_forked` preserves the invariant. -/
theorem inv_fork {p q : Pool T} (hp : Inv p) (h : p.reader_forked = some q) :
    Inv q := by
  obtain ⟨h1, h2, rfl⟩ := reader_forked_some h
  obtain ⟨ds, hchain, hdirty, hcomp⟩ := hp.chain
  exact ⟨hp.keys_nodup, hp.keys_lt, hp.owned_nodup, hp.dom_read, hp.dom_write,
    hp.clean_next, ⟨ds, hchain, hdirty, hcomp⟩, by intro hfalse; simp at hfalse⟩

end Cow

namespace Cow

variable {T : Type}

/-- `Scope::write` preserves the invariant, for any handle and mutator. -/
theorem inv_write {p : Pool T} (hp : Inv p) (h : Nat) (f : T → T) :
    Inv (p.write h f) := by
  obtain ⟨ds, hchain, hdirty, hcomp⟩ := hp.chain
  cases hc : p.cells[h]? with
  | none =>
    rw [write_invalid p h f hc]
    exact hp
  | some c =>
    have hcmem : c ∈ p.cells := mem_of_getElem? hc
    have hlt : h < p.cells.length := (List.getElem?_eq_some.mp hc).1
    by_cases hcow : p.layout_active = true ∧ c.read_ptr = c.write_ptr
    · obtain ⟨v, hv⟩ := Option.isSome_iff_exists.mp (hp.dom_read c hcmem)
      rw [write_clean_active p h f c v hc hcow.1 hcow.2 hv]
      have hfresh : p.next_addr ∉ p.heap.map Prod.fst := fun hmem =>
        absurd (hp.keys_lt _ hmem) (lt_irrefl _)
      have hrlt : c.read_ptr < p.next_addr := (inv_cell_ptr_lt hp hcmem).1
      have hrn : c.read_ptr ≠ p.next_addr := Nat.ne_of_lt hrlt
      have hlook : ∀ b, b ≠ p.next_addr →
          hLookup ((p.next_addr, f v) :: p.heap) b = hLookup p.heap b := by
        intro b hb
        simp [hLookup, hb]
      have hnotds : h ∉ ds := by
        intro hmem
        obtain ⟨cd, hgcd, hdcd⟩ := hdirty h hmem
        rw [hc] at hgcd
        injection hgcd with hcd
        exact hdcd (hcd ▸ hcow.2.symm)
      have hownednew : ownedPtrs (⟨c.read_ptr, p.next_addr, c.read_aux,
          p.first_dirty⟩ : Cell) = [c.read_ptr, p.next_addr] := by
        simp [ownedPtrs, Ne.symm hrn]
      have hownedold : ownedPtrs c = [c.read_ptr] := by
        simp [ownedPtrs, hcow.2.symm]
      refine ⟨?_, ?_, ?_, ?_, ?_, ?_, ?_, ?_⟩
      ·
        simp only [List.map_cons, List.nodup_cons]
        exact ⟨hfresh, hp.keys_nodup⟩
      ·
        intro a ha
        simp only [List.map_cons, List.mem_cons] at ha
        rcases ha with rfl | ha
        · exact Nat.lt_succ_self _
        · exact Nat.lt_succ_of_lt (hp.keys_lt a ha)
      ·
        have hold : (allPtrs (p.cells.take h) ++ [c.read_ptr] ++
            allPtrs (p.cells.drop (h + 1))).Nodup := by
          have holdd := hp.owned_nodup
          rw [allPtrs_decomp hc, hownedold] at holdd
          exact holdd
        have hnmem : p.next_addr ∉ allPtrs (p.cells.take h) ++ [c.read_ptr] ++
            allPtrs (p.cells.drop (h + 1)) := by
          intro hmem
          have hmem' : p.next_addr ∈ allPtrs p.cells := by
            rw [allPtrs_decomp hc, hownedold]
            exact hmem
          exact absurd (owned_lt_next hp _ hmem') (lt_irrefl _)
        have hcons : (p.next_addr :: (allPtrs (p.cells.take h) ++ [c.read_ptr] ++
            allPtrs (p.cells.drop (h + 1)))).Nodup :=
          List.nodup_cons.mpr ⟨hnmem, hold⟩
        rw [allPtrs_set_decomp _ hlt, hownednew]
        have hperm : (p.next_addr :: (allPtrs (p.cells.take h) ++ [c.read_ptr] ++
            allPtrs (p.cells.drop (h + 1)))).Perm
            (allPtrs (p.cells.take h) ++ [c.read_ptr, p.next_addr] ++
              allPtrs (p.cells.drop (h + 1))) := by
          have hmid := @List.perm_middle _ p.next_addr
            (allPtrs (p.cells.take h) ++ [c.read_ptr])
            (allPtrs (p.cells.drop (h + 1)))
          simpa using hmid.symm
        exact hperm.nodup_iff.mp hcons
      ·
        intro cm hcm
        obtain ⟨i, hgi⟩ := List.mem_iff_getElem?.mp hcm
        by_cases hih : i = h
        · subst hih
          rw [List.getElem?_set_self hlt] at hgi
          injection hgi with hgi
          subst hgi
          rw [hlook _ hrn]
          exact hp.dom_read c hcmem
        · rw [List.getElem?_set_ne (Ne.symm hih)] at hgi
          have hm := mem_of_getElem? hgi
          rw [hlook _ (Nat.ne_of_lt (inv_cell_ptr_lt hp hm).1)]
          exact hp.dom_read cm hm
      ·
        intro cm hcm
        obtain ⟨i, hgi⟩ := List.mem_iff_getElem?.mp hcm
        by_cases hih : i = h
        · subst hih
          rw [List.getElem?_set_self hlt] at hgi
          injection hgi with hgi
          subst hgi
          simp [hLookup]
        · rw [List.getElem?_set_ne (Ne.symm hih)] at hgi
          have hm := mem_of_getElem? hgi
          rw [hlook _ (Nat.ne_of_lt (inv_cell_ptr_lt hp hm).2)]
          exact hp.dom_write cm hm
      ·
        intro cm hcm
        obtain ⟨i, hgi⟩ := List.mem_iff_getElem?.mp hcm
        by_cases hih : i = h
        · subst hih
          rw [List.getElem?_set_self hlt] at hgi
          injection hgi with hgi
          subst hgi
          intro hbad
          exact absurd (hbad : p.next_addr = c.read_ptr).symm hrn
        · rw [List.getElem?_set_ne (Ne.symm hih)] at hgi
          exact hp.clean_next cm (mem_of_getElem? hgi)
      ·
        refine ⟨h :: ds, ChainIs.cons (List.getElem?_set_self hlt)
          (chainIs_set_of_not_mem hchain hnotds), ?_, ?_⟩
        · intro i hi
          rcases List.mem_cons.mp hi with rfl | hi
          · exact ⟨_, List.getElem?_set_self hlt, Ne.symm hrn⟩
          · obtain ⟨cd, hgcd, hdcd⟩ := hdirty i hi
            have hne : i ≠ h := fun he => hnotds (he ▸ hi)
            exact ⟨cd, by rw [List.getElem?_set_ne (Ne.symm hne)]; exact hgcd, hdcd⟩
        · intro i cm hgi hdm
          by_cases hih : i = h
          · exact hih ▸ List.mem_cons_self _ _
          · rw [List.getElem?_set_ne (Ne.symm hih)] at hgi
            exact List.mem_cons_of_mem _ (hcomp i cm hgi hdm)
      ·
        intro hfalse
        rw [show ({ p with
              heap := (p.next_addr, f v) :: p.heap,
              next_addr := p.next_addr + 1,
              allocs := p.allocs + 1,
              cells := p.cells.set h ⟨c.read_ptr, p.next_addr, c.read_aux, p.first_dirty⟩,
              first_dirty := some h } : Pool T).layout_active = p.layout_active from rfl,
            hcow.1] at hfalse
        cases hfalse
    · obtain ⟨v, hv⟩ := Option.isSome_iff_exists.mp (hp.dom_write c hcmem)
      rw [write_no_cow p h f c v hc hcow hv]
      refine ⟨?_, ?_, hp.owned_nodup, ?_, ?_, hp.clean_next,
        ⟨ds, hchain, hdirty, hcomp⟩, hp.quiescent⟩
      · rw [show ({ p with heap := hSet p.heap c.write_ptr (f v) } : Pool T).heap =
          hSet p.heap c.write_ptr (f v) from rfl, hSet_keys]
        exact hp.keys_nodup
      · intro a ha
        rw [show ({ p with heap := hSet p.heap c.write_ptr (f v) } : Pool T).heap =
          hSet p.heap c.write_ptr (f v) from rfl, hSet_keys] at ha
        exact hp.keys_lt a ha
      · intro cm hcm
        rw [show ({ p with heap := hSet p.heap c.write_ptr (f v) } : Pool T).heap =
          hSet p.heap c.write_ptr (f v) from rfl, hLookup_hSet_isSome]
        exact hp.dom_read cm hcm
      · intro cm hcm
        rw [show ({ p with heap := hSet p.heap c.write_ptr (f v) } : Pool T).heap =
          hSet p.heap c.write_ptr (f v) from rfl, hLookup_hSet_isSome]
        exact hp.dom_write cm hcm

end Cow

namespace Cow

variable {T : Type}

theorem joinLoop_none (fuel : Nat) (p : Pool T) : joinLoop fuel p none = p := by
  cases fuel <;> rfl

theorem joinLoop_some (fuel : Nat) (p : Pool T) (i : Nat) (c : Cell)
    (hc : p.cells[i]? = some c) :
    joinLoop (fuel + 1) p (some i) =
      joinLoop fuel
        { p with heap := hFree p.heap c.read_ptr, frees := p.frees + 1,
                 cells := p.cells.set i ⟨c.write_ptr, c.write_ptr, c.read_aux, none⟩ }
        c.next_dirty := by
  simp only [joinLoop, hc]

/-- What one full walk of the dirty list does: every listed cell is published
(`read_ptr ← write_ptr`, link cleared) and its stale reader payload freed;
everything else — other cells, other payloads, all bookkeeping except the
free counter — is untouched. -/
structure JoinOut {T : Type} (p q : Pool T) (ds : List Nat) : Prop where
  same_layout : q.layout_active = p.layout_active
  same_first : q.first_dirty = p.first_dirty
  same_free_list : q.free_list = p.free_list
  same_next_addr : q.next_addr = p.next_addr
  same_allocs : q.allocs = p.allocs
  same_cellAllocs : q.cellAllocs = p.cellAllocs
  same_cellFrees : q.cellFrees = p.cellFrees
  frees_eq : q.frees = p.frees + ds.length
  cells_other : ∀ i, i ∉ ds → q.cells[i]? = p.cells[i]?
  cells_ds : ∀ i ∈ ds, ∀ c, p.cells[i]? = some c →
      q.cells[i]? = some ⟨c.write_ptr, c.write_ptr, c.read_aux, none⟩
  keys_nodup : (q.heap.map Prod.fst).Nodup
  lookup_none_mono : ∀ b, hLookup p.heap b = none → hLookup q.heap b = none
  lookup_other : ∀ b, (∀ i ∈ ds, ∀ c, p.cells[i]? = some c → b ≠ c.read_ptr) →
      hLookup q.heap b = hLookup p.heap b
  lookup_freed : ∀ i ∈ ds, ∀ c, p.cells[i]? = some c →
      hLookup q.heap c.read_ptr = none
  same_cells_len : q.cells.length = p.cells.length

theorem joinLoop_spec (ds : List Nat) :
    ∀ (p : Pool T) (o : Option Nat) (fuel : Nat),
    ChainIs p.cells o ds →
    (∀ i ∈ ds, ∃ c, p.cells[i]? = some c ∧ c.write_ptr ≠ c.read_ptr) →
    (p.heap.map Prod.fst).Nodup →
    ds.length ≤ fuel →
    JoinOut p (joinLoop fuel p o) ds := by
  induction ds with
  | nil =>
    intro p o fuel hchain _ hkeys _
    cases hchain
    rw [joinLoop_none]
    exact ⟨rfl, rfl, rfl, rfl, rfl, rfl, rfl, rfl,
      fun i _ => rfl, fun i hi => absurd hi (List.not_mem_nil i), hkeys,
      fun b hb => hb, fun b _ => rfl, fun i hi => absurd hi (List.not_mem_nil i), rfl⟩
  | cons i ds' ih =>
    intro p o fuel hchain hdirty hkeys hfuel
    cases hchain with
    | cons hget hrest =>
      rename_i c
      have hilt : i < p.cells.length := (List.getElem?_eq_some.mp hget).1
      have hnodup : (i :: ds').Nodup := chainIs_nodup (ChainIs.cons hget hrest)
      have hni : i ∉ ds' := (List.nodup_cons.mp hnodup).1
      cases fuel with
      | zero => simp at hfuel
      | succ f =>
        rw [joinLoop_some f p i c hget]
        set p1 : Pool T :=
          { p with heap := hFree p.heap c.read_ptr,
                   frees := p.frees + 1,
                   cells := p.cells.set i ⟨c.write_ptr, c.write_ptr, c.read_aux, none⟩ }
          with hp1
        have hcells1 : ∀ j, j ≠ i → p1.cells[j]? = p.cells[j]? := by
          intro j hj
          rw [hp1]
          exact List.getElem?_set_ne (Ne.symm hj)
        have hchain' : ChainIs p1.cells c.next_dirty ds' :=
          chainIs_set_of_not_mem hrest hni
        have hdirty' : ∀ j ∈ ds', ∃ cj, p1.cells[j]? = some cj ∧
            cj.write_ptr ≠ cj.read_ptr := by
          intro j hj
          obtain ⟨cj, hcj, hdj⟩ := hdirty j (List.mem_cons_of_mem i hj)
          exact ⟨cj, by rw [hcells1 j (fun he => hni (he ▸ hj))]; exact hcj, hdj⟩
        have hkeys' : (p1.heap.map Prod.fst).Nodup := by
          rw [hp1]
          show ((hFree p.heap c.read_ptr).map Prod.fst).Nodup
          rw [hFree_keys]
          exact hkeys.erase _
        have hfuel' : ds'.length ≤ f := by simpa using hfuel
        obtain O := ih p1 c.next_dirty f hchain' hdirty' hkeys' hfuel'
        refine ⟨?_, ?_, ?_, ?_, ?_, ?_, ?_, ?_, ?_, ?_, ?_, ?_, ?_, ?_, ?_⟩
        · rw [O.same_layout]
        · rw [O.same_first]
        · rw [O.same_free_list]
        · rw [O.same_next_addr]
        · rw [O.same_allocs]
        · rw [O.same_cellAllocs]
        · rw [O.same_cellFrees]
        · rw [O.frees_eq]
          show p.frees + 1 + ds'.length = p.frees + (i :: ds').length
          simp only [List.length_cons]
          omega
        · intro j hj
          have hji : j ≠ i := fun he => hj (he ▸ List.mem_cons_self i ds')
          rw [O.cells_other j (fun hm => hj (List.mem_cons_of_mem i hm)), hcells1 j hji]
        · intro j hj c0 hc0
          rcases List.mem_cons.mp hj with rfl | hj'
          · rw [hget] at hc0
            injection hc0 with hc0
            subst hc0
            rw [O.cells_other j hni, hp1]
            exact List.getElem?_set_self hilt
          · have hji : j ≠ i := fun he => hni (he ▸ hj')
            exact O.cells_ds j hj' c0 (by rw [hcells1 j hji]; exact hc0)
        · exact O.keys_nodup
        · intro b hb
          exact O.lookup_none_mono b (by
            show hLookup (hFree p.heap c.read_ptr) b = none
            exact hFree_lookup_none _ _ _ hb)
        · intro b hb
          have hbr : b ≠ c.read_ptr := hb i (List.mem_cons_self i ds') c hget
          have h1 : hLookup p1.heap b = hLookup p.heap b := by
            rw [hp1]
            show hLookup (hFree p.heap c.read_ptr) b = hLookup p.heap b
            exact hLookup_hFree_ne _ _ _ hbr
          rw [← h1]
          refine O.lookup_other b ?_
          intro j hj cj hcj
          have hji : j ≠ i := fun he => hni (he ▸ hj)
          rw [hcells1 j hji] at hcj
          exact hb j (List.mem_cons_of_mem i hj) cj hcj
        · intro j hj c0 hc0
          rcases List.mem_cons.mp hj with rfl | hj'
          · rw [hget] at hc0
            injection hc0 with hc0
            subst hc0
            refine O.lookup_none_mono _ ?_
            show hLookup (hFree p.heap c.read_ptr) c.read_ptr = none
            exact hLookup_hFree_self _ _ hkeys
          · have hji : j ≠ i := fun he => hni (he ▸ hj')
            exact O.lookup_freed j hj' c0 (by rw [hcells1 j hji]; exact hc0)
        · rw [O.same_cells_len]
          simp [hp1]

end Cow

namespace Cow

variable {T : Type}

theorem reader_joined_some {p q : Pool T} (h : p.reader_joined = some q) :
    p.layout_active = true ∧
      q = { joinLoop p.cells.length p p.first_dirty with
            first_dirty := none, layout_active := false } := by
  unfold Pool.reader_joined at h
  split at h
  · rename_i hact
    exact ⟨hact, (Option.some.inj h).symm⟩
  · exact absurd h (by simp)

theorem reader_joined_of_active {p : Pool T} (hact : p.layout_active = true) :
    p.reader_joined =
      some { joinLoop p.cells.length p p.first_dirty with
             first_dirty := none, layout_active := false } := by
  unfold Pool.reader_joined
  rw [if_pos hact]

theorem allPtrs_sublist {l₁ l₂ : List Cell}
    (h : List.Forall₂ (fun c₁ c₂ => (ownedPtrs c₁).Sublist (ownedPtrs c₂)) l₁ l₂) :
    (allPtrs l₁).Sublist (allPtrs l₂) := by
  induction h with
  | nil => simp [allPtrs]
  | cons hr _ ih =>
    rw [allPtrs_cons, allPtrs_cons]
    exact hr.append ih

/-- Everything `reader_joined` does, stated against the pre-state: there is a
list `ds` — the dirty list — containing exactly the dirty cells; each of
them is published and its stale reader payload freed; nothing else changes
except the free counter, the cleared dirty head and the cleared
reader-active flag. -/
theorem join_spec {p q : Pool T} (hp : Inv p) (h : p.reader_joined = some q) :
    ∃ ds, ChainIs p.cells p.first_dirty ds ∧
      (∀ i c, p.cells[i]? = some c → (c.write_ptr ≠ c.read_ptr ↔ i ∈ ds)) ∧
      q.layout_active = false ∧
      q.first_dirty = none ∧
      q.free_list = p.free_list ∧
      q.next_addr = p.next_addr ∧
      q.allocs = p.allocs ∧
      q.cellAllocs = p.cellAllocs ∧
      q.cellFrees = p.cellFrees ∧
      q.frees = p.frees + ds.length ∧
      q.cells.length = p.cells.length ∧
      (∀ i, i ∉ ds → q.cells[i]? = p.cells[i]?) ∧
      (∀ i ∈ ds, ∀ c, p.cells[i]? = some c →
          q.cells[i]? = some ⟨c.write_ptr, c.write_ptr, c.read_aux, none⟩) ∧
      (q.heap.map Prod.fst).Nodup ∧
      (∀ b, (∀ i ∈ ds, ∀ c, p.cells[i]? = some c → b ≠ c.read_ptr) →
          hLookup q.heap b = hLookup p.heap b) ∧
      (∀ i ∈ ds, ∀ c, p.cells[i]? = some c → hLookup q.heap c.read_ptr = none) ∧
      (∀ b, hLookup p.heap b = none → hLookup q.heap b = none) := by
  obtain ⟨hact, rfl⟩ := reader_joined_some h
  obtain ⟨ds, hchain, hdirty, hcomp⟩ := hp.chain
  have O := joinLoop_spec ds p p.first_dirty p.cells.length hchain hdirty
    hp.keys_nodup (chainIs_length_le hchain)
  refine ⟨ds, hchain, ?_, rfl, rfl, O.same_free_list, O.same_next_addr,
    O.same_allocs, O.same_cellAllocs, O.same_cellFrees, O.frees_eq,
    O.same_cells_len, O.cells_other, O.cells_ds, O.keys_nodup,
    O.lookup_other, O.lookup_freed, O.lookup_none_mono⟩
  intro i c hc
  constructor
  · exact hcomp i c hc
  · intro hi
    obtain ⟨c', hc', hd'⟩ := hdirty i hi
    rw [hc] at hc'
    injection hc' with hc'
    subst hc'
    exact hd'

end Cow

namespace Cow

variable {T : Type}

theorem avoid_reads {p : Pool T} (hp : Inv p) (ds : List Nat)
    {i : Nat} {ci : Cell} (hci : p.cells[i]? = some ci) {a : Nat}
    (ha : a ∈ ownedPtrs ci) (hself : i ∈ ds → a ≠ ci.read_ptr) :
    ∀ j ∈ ds, ∀ cj, p.cells[j]? = some cj → a ≠ cj.read_ptr := by
  intro j hj cj hcj
  by_cases hij : i = j
  · subst hij
    rw [hci] at hcj
    injection hcj with hcj
    subst hcj
    exact hself hj
  · intro he
    exact owned_disjoint hp.owned_nodup hci hcj hij a ha
      (he ▸ read_mem_ownedPtrs cj)

/-- `Scope::reader_joined` preserves the invariant. -/
theorem inv_join {p q : Pool T} (hp : Inv p) (h : p.reader_joined = some q) :
    Inv q := by
  obtain ⟨ds, hchain, hiff, hqact, hqfirst, hfree_list, hnext, hallocs, hcA, hcF,
    hfrees, hlen, hother, hds, hkeys, hlook_other, hlook_freed, hnone⟩ :=
    join_spec hp h
  refine ⟨hkeys, ?_, ?_, ?_, ?_, ?_, ?_, ?_⟩
  · intro a ha
    rw [hnext]
    have hsome : (hLookup q.heap a).isSome := (hLookup_isSome_iff _ _).mpr ha
    cases hpa : hLookup p.heap a with
    | none =>
      rw [hnone a hpa] at hsome
      simp at hsome
    | some w =>
      exact hp.keys_lt a ((hLookup_isSome_iff _ _).mp (by rw [hpa]; rfl))
  · have hforall : List.Forall₂
        (fun c₁ c₂ => (ownedPtrs c₁).Sublist (ownedPtrs c₂)) q.cells p.cells := by
      rw [List.forall₂_iff_get]
      refine ⟨hlen, ?_⟩
      intro i h1 h2
      simp only [List.get_eq_getElem]
      have hcp : p.cells[i]? = some p.cells[i] := List.getElem?_eq_getElem h2
      have hcq : q.cells[i]? = some q.cells[i] := List.getElem?_eq_getElem h1
      by_cases hi : i ∈ ds
      · have hqc := hds i hi _ hcp
        rw [hcq] at hqc
        injection hqc with hqc
        rw [hqc]
        have hd : (p.cells[i]).write_ptr ≠ (p.cells[i]).read_ptr :=
          (hiff i _ hcp).mpr hi
        have hlhs : ownedPtrs (⟨(p.cells[i]).write_ptr,
            (p.cells[i]).write_ptr, (p.cells[i]).read_aux,
            none⟩ : Cell) = [(p.cells[i]).write_ptr] := by
          simp [ownedPtrs]
        have hrhs : ownedPtrs (p.cells[i]) =
            [(p.cells[i]).read_ptr, (p.cells[i]).write_ptr] := by
          simp [ownedPtrs, hd]
        rw [hlhs, hrhs]
        exact List.sublist_cons_self _ _
      · have hsame := hother i hi
        rw [hcq, hcp] at hsame
        injection hsame with hsame
        rw [hsame]
    exact (allPtrs_sublist hforall).nodup hp.owned_nodup
  · intro cm hcm
    obtain ⟨i, hgi⟩ := List.mem_iff_getElem?.mp hcm
    have hilt : i < q.cells.length := (List.getElem?_eq_some.mp hgi).1
    have hplt : i < p.cells.length := hlen ▸ hilt
    have hcp : p.cells[i]? = some p.cells[i] := List.getElem?_eq_getElem hplt
    have hmemp : p.cells[i] ∈ p.cells := mem_of_getElem? hcp
    by_cases hi : i ∈ ds
    · have hqc := hds i hi _ hcp
      rw [hgi] at hqc
      injection hqc with hqc
      subst hqc
      have hd : (p.cells[i]).write_ptr ≠ (p.cells[i]).read_ptr :=
        (hiff i _ hcp).mpr hi
      rw [hlook_other _ (avoid_reads hp ds hcp (write_mem_ownedPtrs _)
        (fun _ => hd))]
      exact hp.dom_write _ hmemp
    · have hsame := hother i hi
      rw [hgi, hcp] at hsame
      injection hsame with hsame
      subst hsame
      rw [hlook_other _ (avoid_reads hp ds hcp (read_mem_ownedPtrs _)
        (fun hmem => absurd hmem hi))]
      exact hp.dom_read _ hmemp
  · intro cm hcm
    obtain ⟨i, hgi⟩ := List.mem_iff_getElem?.mp hcm
    have hilt : i < q.cells.length := (List.getElem?_eq_some.mp hgi).1
    have hplt : i < p.cells.length := hlen ▸ hilt
    have hcp : p.cells[i]? = some p.cells[i] := List.getElem?_eq_getElem hplt
    have hmemp : p.cells[i] ∈ p.cells := mem_of_getElem? hcp
    by_cases hi : i ∈ ds
    · have hqc := hds i hi _ hcp
      rw [hgi] at hqc
      injection hqc with hqc
      subst hqc
      have hd : (p.cells[i]).write_ptr ≠ (p.cells[i]).read_ptr :=
        (hiff i _ hcp).mpr hi
      rw [hlook_other _ (avoid_reads hp ds hcp (write_mem_ownedPtrs _)
        (fun _ => hd))]
      exact hp.dom_write _ hmemp
    · have hsame := hother i hi
      rw [hgi, hcp] at hsame
      injection hsame with hsame
      subst hsame
      rw [hlook_other _ (avoid_reads hp ds hcp (write_mem_ownedPtrs _)
        (fun hmem => absurd hmem hi))]
      exact hp.dom_write _ hmemp
  · intro cm hcm
    obtain ⟨i, hgi⟩ := List.mem_iff_getElem?.mp hcm
    have hilt : i < q.cells.length := (List.getElem?_eq_some.mp hgi).1
    have hplt : i < p.cells.length := hlen ▸ hilt
    have hcp : p.cells[i]? = some p.cells[i] := List.getElem?_eq_getElem hplt
    by_cases hi : i ∈ ds
    · have hqc := hds i hi _ hcp
      rw [hgi] at hqc
      injection hqc with hqc
      subst hqc
      intro
      rfl
    · have hsame := hother i hi
      rw [hgi, hcp] at hsame
      injection hsame with hsame
      subst hsame
      exact hp.clean_next _ (mem_of_getElem? hcp)
  · refine ⟨[], ?_, by simp, ?_⟩
    · rw [hqfirst]
      exact ChainIs.nil
    · intro i cm hgc hd
      have hilt : i < q.cells.length := (List.getElem?_eq_some.mp hgc).1
      have hplt : i < p.cells.length := hlen ▸ hilt
      have hcp : p.cells[i]? = some p.cells[i] := List.getElem?_eq_getElem hplt
      by_cases hi : i ∈ ds
      · have hqc := hds i hi _ hcp
        rw [hgc] at hqc
        injection hqc with hqc
        subst hqc
        exact absurd rfl hd
      · have hsame := hother i hi
        rw [hgc, hcp] at hsame
        injection hsame with hsame
        subst hsame
        exact absurd ((hiff i _ hcp).mp hd) hi
  · intro
    exact hqfirst

end Cow

namespace Cow

variable {T : Type}

/-- One operation of the pool's public API, as performed by the writer (plus
the read-only reader operations, which never change the state). -/
inductive Step {T : Type} : Pool T → Pool T → Prop where
  | handle (p : Pool T) (v : T) : Step p (p.handle v).1
  | hread (p : Pool T) (h : Nat) {U : Type} (f : T → U) : Step p (handle_read p h f).1
  | sread (p : Pool T) (h : Nat) {U : Type} (f : T → U) : Step p (Pool.read p h f).1
  | haux (p : Pool T) (h : Nat) : Step p (has_aux p h).1
  | write (p : Pool T) (h : Nat) (f : T → T) : Step p (p.write h f)
  | fork (p q : Pool T) (hf : p.reader_forked = some q) : Step p q
  | join (p q : Pool T) (hj : p.reader_joined = some q) : Step p q

/-- Pool states reachable from `Scope()` through the public API. -/
inductive Reachable {T : Type} : Pool T → Prop where
  | init : Reachable (emptyPool T)
  | step {p q : Pool T} : Reachable p → Step p q → Reachable q

theorem inv_step {p q : Pool T} (hp : Inv p) (hs : Step p q) : Inv q := by
  cases hs with
  | handle v => exact inv_handle hp v
  | hread h f => exact hp
  | sread h f => exact hp
  | haux h => exact hp
  | write h f => exact inv_write hp h f
  | fork =>
    rename_i heq
    exact inv_fork hp heq
  | join =>
    rename_i heq
    exact inv_join hp heq

/-- Every reachable pool state satisfies the invariant. -/
theorem inv_reachable {p : Pool T} (hr : Reachable p) : Inv p := by
  induction hr with
  | init => exact inv_empty T
  | step _ hs ih => exact inv_step ih hs

/-- Demonstration pool: one cell holding `7`. -/
def demoPool : Pool Nat := ((emptyPool Nat).handle 7).1

/-- Demonstration pool: cells holding `7` and `5`. -/
def demoPool2 : Pool Nat := (demoPool.handle 5).1

/-- `demoPool` after `reader_forked`. -/
def demoForked : Pool Nat := { demoPool with layout_active := true }

/-- `demoPool2` after `reader_forked`. -/
def demoForked2 : Pool Nat := { demoPool2 with layout_active := true }

/-- `demoForked` after a COW `write` to its only cell. -/
def demoDirty : Pool Nat := demoForked.write 0 (fun x => x + 1)

/-- `demoDirty` after `reader_joined`. -/
def demoJoined : Pool Nat :=
  { joinLoop demoDirty.cells.length demoDirty demoDirty.first_dirty with
    first_dirty := none, layout_active := false }

theorem demoPool_forked : demoPool.reader_forked = some demoForked := rfl

theorem demoPool2_forked : demoPool2.reader_forked = some demoForked2 := rfl

theorem demoDirty_joined : demoDirty.reader_joined = some demoJoined := rfl

theorem inv_demoPool : Inv demoPool := inv_handle (inv_empty Nat) 7

theorem inv_demoPool2 : Inv demoPool2 := inv_handle inv_demoPool 5

theorem inv_demoForked : Inv demoForked := inv_fork inv_demoPool demoPool_forked

theorem inv_demoForked2 : Inv demoForked2 := inv_fork inv_demoPool2 demoPool2_forked

theorem inv_demoDirty : Inv demoDirty := inv_write inv_demoForked 0 (fun x => x + 1)

theorem reachable_demoDirty : Reachable demoDirty :=
  Reachable.step
    (Reachable.step
      (Reachable.step Reachable.init (Step.handle (emptyPool Nat) 7))
      (Step.fork demoPool demoForked demoPool_forked))
    (Step.write demoForked 0 (fun x => x + 1))

end Cow

namespace Cow

variable {T : Type}

/-- The writer-side operations available between `reader_forked` and
`reader_joined`: creating new handles, writing through any handle, and
writer-view reads. -/
inductive IStep {T : Type} : Pool T → Pool T → Prop where
  | handle (p : Pool T) (v : T) : IStep p (p.handle v).1
  | write (p : Pool T) (h : Nat) (f : T → T) : IStep p (p.write h f)
  | sread (p : Pool T) (h : Nat) {U : Type} (f : T → U) : IStep p (Pool.read p h f).1

theorem istep_preserves {p q : Pool T} (hp : Inv p) (hact : p.layout_active = true)
    (hs : IStep p q) :
    Inv q ∧ q.layout_active = true ∧ p.cells.length ≤ q.cells.length ∧
      (∀ h, h < p.cells.length → readerView q h = readerView p h) := by
  cases hs with
  | handle v =>
    refine ⟨inv_handle hp v, hact, by simp [Pool.handle], ?_⟩
    intro h hlt
    have hc : p.cells[h]? = some p.cells[h] := List.getElem?_eq_getElem hlt
    have hmem : p.cells[h] ∈ p.cells := mem_of_getElem? hc
    have hrlt : (p.cells[h]).read_ptr < p.next_addr := (inv_cell_ptr_lt hp hmem).1
    have hget' : (p.handle v).1.cells[h]? = some p.cells[h] := by
      show (p.cells ++ [⟨p.next_addr, p.next_addr, none, none⟩])[h]? = _
      rw [List.getElem?_append, if_pos hlt]
      exact hc
    simp only [readerView, hget', hc]
    show hLookup ((p.next_addr, v) :: p.heap) (p.cells[h]).read_ptr = _
    simp [hLookup, Nat.ne_of_lt hrlt]
  | write hw f =>
    have hmain : (p.write hw f).layout_active = p.layout_active ∧
        p.cells.length ≤ (p.write hw f).cells.length ∧
        (∀ h, h < p.cells.length → readerView (p.write hw f) h = readerView p h) := by
      cases hc : p.cells[hw]? with
      | none =>
        rw [write_invalid p hw f hc]
        exact ⟨rfl, le_refl _, fun _ _ => rfl⟩
      | some c =>
        have hcmem : c ∈ p.cells := mem_of_getElem? hc
        have hwlt : hw < p.cells.length := (List.getElem?_eq_some.mp hc).1
        by_cases hcow : p.layout_active = true ∧ c.read_ptr = c.write_ptr
        · obtain ⟨v, hv⟩ := Option.isSome_iff_exists.mp (hp.dom_read c hcmem)
          rw [write_clean_active p hw f c v hc hcow.1 hcow.2 hv]
          refine ⟨rfl, by simp, ?_⟩
          intro h hlt
          by_cases hhw : h = hw
          · subst hhw
            simp only [readerView]
            show (match (p.cells.set h
                ⟨c.read_ptr, p.next_addr, c.read_aux, p.first_dirty⟩)[h]? with
              | some c => hLookup ((p.next_addr, f v) :: p.heap) c.read_ptr
              | none => none) = _
            rw [List.getElem?_set_self hwlt, hc]
            have hrlt : c.read_ptr < p.next_addr := (inv_cell_ptr_lt hp hcmem).1
            simp [hLookup, Nat.ne_of_lt hrlt]
          · have hc2 : p.cells[h]? = some p.cells[h] := List.getElem?_eq_getElem hlt
            have hmem2 : p.cells[h] ∈ p.cells := mem_of_getElem? hc2
            have hrlt2 : (p.cells[h]).read_ptr < p.next_addr :=
              (inv_cell_ptr_lt hp hmem2).1
            simp only [readerView]
            show (match (p.cells.set hw
                ⟨c.read_ptr, p.next_addr, c.read_aux, p.first_dirty⟩)[h]? with
              | some c => hLookup ((p.next_addr, f v) :: p.heap) c.read_ptr
              | none => none) = _
            rw [List.getElem?_set_ne (fun he => hhw he.symm), hc2]
            simp [hLookup, Nat.ne_of_lt hrlt2]
        · obtain ⟨v, hv⟩ := Option.isSome_iff_exists.mp (hp.dom_write c hcmem)
          rw [write_no_cow p hw f c v hc hcow hv]
          have hd : c.read_ptr ≠ c.write_ptr := by
            intro he
            exact hcow ⟨hact, he⟩
          refine ⟨rfl, le_refl _, ?_⟩
          intro h hlt
          have hc2 : p.cells[h]? = some p.cells[h] := List.getElem?_eq_getElem hlt
          simp only [readerView, hc2]
          by_cases hhw : h = hw
          · subst hhw
            rw [hc2] at hc
            injection hc with hc
            subst hc
            exact hLookup_hSet_ne _ _ _ _ hd
          · have hdisj := owned_disjoint hp.owned_nodup hc2 hc hhw
            have hne : (p.cells[h]).read_ptr ≠ c.write_ptr := by
              intro he
              exact hdisj _ (read_mem_ownedPtrs _) (he ▸ write_mem_ownedPtrs c)
            exact hLookup_hSet_ne _ _ _ _ hne
    exact ⟨inv_write hp hw f, hmain.1.trans hact, hmain.2.1, hmain.2.2⟩
  | sread h f =>
    exact ⟨hp, hact, le_refl _, fun _ _ => rfl⟩

/-- Between fork and join, any sequence of writer operations leaves every
pre-existing handle's reader view untouched. -/
theorem isteps_snapshot {p q : Pool T} (hp : Inv p) (hact : p.layout_active = true)
    (hsteps : Relation.ReflTransGen (IStep (T := T)) p q) :
    Inv q ∧ q.layout_active = true ∧ p.cells.length ≤ q.cells.length ∧
      (∀ h, h < p.cells.length → readerView q h = readerView p h) := by
  induction hsteps with
  | refl => exact ⟨hp, hact, le_refl _, fun _ _ => rfl⟩
  | tail _ hstep ih =>
    obtain ⟨hib, hactb, hlenb, hviewb⟩ := ih
    obtain ⟨hic, hactc, hlenc, hviewc⟩ := istep_preserves hib hactb hstep
    exact ⟨hic, hactc, le_trans hlenb hlenc, fun h hlt =>
      (hviewc h (lt_of_lt_of_le hlt hlenb)).trans (hviewb h hlt)⟩

end Cow

namespace Cow

variable {T : Type}

/-- After a successful `reader_joined`, every cell is aliased (clean) and
unlinked. -/
theorem join_all_clean {p q : Pool T} (hp : Inv p) (hj : p.reader_joined = some q) :
    ∀ c ∈ q.cells, c.write_ptr = c.read_ptr ∧ c.next_dirty = none := by
  obtain ⟨ds, hchain, hiff, hqact, hqfirst, hfl, hnext, hallocs, hcA, hcF,
    hfrees, hlen, hother, hds, hkeys, hlook_other, hlook_freed, hnone⟩ :=
    join_spec hp hj
  intro cm hcm
  obtain ⟨i, hgi⟩ := List.mem_iff_getElem?.mp hcm
  have hilt : i < q.cells.length := (List.getElem?_eq_some.mp hgi).1
  have hplt : i < p.cells.length := hlen ▸ hilt
  have hcp : p.cells[i]? = some p.cells[i] := List.getElem?_eq_getElem hplt
  by_cases hi : i ∈ ds
  · have hqc := hds i hi _ hcp
    rw [hgi] at hqc
    injection hqc with hqc
    subst hqc
    exact ⟨rfl, rfl⟩
  · have hsame := hother i hi
    rw [hgi, hcp] at hsame
    injection hsame with hsame
    subst hsame
    have hclean : (p.cells[i]).write_ptr = (p.cells[i]).read_ptr := by
      by_contra hd
      exact hi ((hiff i _ hcp).mp hd)
    exact ⟨hclean, hp.clean_next _ (mem_of_getElem? hcp) hclean⟩

/-- C1: `Pool.write(h, f)` on a valid handle of a well-formed pool.  In
`ReaderActive` with a clean cell (`write_ptr == read_ptr`), exactly one new
payload is allocated (at the watermark), initialized from the contents at
`read_ptr` and only then handed to `f` (so it ends up holding `f v`);
`write_ptr` is pointed at it; the cell is spliced onto the front of the
dirty list (`next_dirty ← first_dirty`, `first_dirty ← h`); the reader
payload at `read_ptr` is untouched.  If the cell is already dirty or the
pool is quiescent, no copy is made — allocation count, cells and dirty list
are unchanged — and `f` acts on the payload at `write_ptr` in place. -/
theorem write_cow_claim (p : Pool T) (hp : Inv p) (h : Nat) (f : T → T)
    (c : Cell) (hc : p.cells[h]? = some c) :
    (∀ v, p.layout_active = true → c.write_ptr = c.read_ptr →
      hLookup p.heap c.read_ptr = some v →
      (p.write h f).allocs = p.allocs + 1 ∧
      (p.write h f).cells[h]? =
        some ⟨c.read_ptr, p.next_addr, c.read_aux, p.first_dirty⟩ ∧
      (p.write h f).first_dirty = some h ∧
      hLookup (p.write h f).heap p.next_addr = some (f v) ∧
      hLookup (p.write h f).heap c.read_ptr = some v) ∧
    (∀ v, ¬(p.layout_active = true ∧ c.read_ptr = c.write_ptr) →
      hLookup p.heap c.write_ptr = some v →
      (p.write h f).allocs = p.allocs ∧
      (p.write h f).cells = p.cells ∧
      (p.write h f).first_dirty = p.first_dirty ∧
      hLookup (p.write h f).heap c.write_ptr = some (f v) ∧
      (∀ b, b ≠ c.write_ptr → hLookup (p.write h f).heap b = hLookup p.heap b)) := by
  constructor
  · intro v hact hclean hv
    rw [write_clean_active p h f c v hc hact hclean.symm hv]
    have hwlt : h < p.cells.length := (List.getElem?_eq_some.mp hc).1
    have hrlt : c.read_ptr < p.next_addr :=
      (inv_cell_ptr_lt hp (mem_of_getElem? hc)).1
    refine ⟨rfl, List.getElem?_set_self hwlt, rfl, ?_, ?_⟩
    · show hLookup ((p.next_addr, f v) :: p.heap) p.next_addr = some (f v)
      simp [hLookup]
    · show hLookup ((p.next_addr, f v) :: p.heap) c.read_ptr = some v
      simp [hLookup, Nat.ne_of_lt hrlt, hv]
  · intro v hncow hv
    rw [write_no_cow p h f c v hc hncow hv]
    refine ⟨rfl, rfl, rfl, ?_, ?_⟩
    · show hLookup (hSet p.heap c.write_ptr (f v)) c.write_ptr = some (f v)
      exact hLookup_hSet_self _ _ _ (by rw [hv]; rfl)
    · intro b hb
      exact hLookup_hSet_ne _ _ _ _ hb

theorem write_cow_claim_witness :
    demoForked.cells[0]? = some ⟨0, 0, none, none⟩ ∧
    demoForked.layout_active = true ∧
    ((demoForked.write 0 (fun x => x + 1)).allocs = demoForked.allocs + 1 ∧
      (demoForked.write 0 (fun x => x + 1)).first_dirty = some 0 ∧
      hLookup (demoForked.write 0 (fun x => x + 1)).heap demoForked.next_addr =
        some 8) ∧
    demoDirty.cells[0]? = some ⟨0, 1, none, none⟩ ∧
    ((demoDirty.write 0 (fun x => x * 2)).allocs = demoDirty.allocs ∧
      (demoDirty.write 0 (fun x => x * 2)).cells = demoDirty.cells) := by
  have h1 := (write_cow_claim demoForked inv_demoForked 0 (fun x => x + 1)
    ⟨0, 0, none, none⟩ rfl).1 7 rfl rfl rfl
  have h2 := (write_cow_claim demoDirty inv_demoDirty 0 (fun x => x * 2)
    ⟨0, 1, none, none⟩ rfl).2 8 (by decide) rfl
  exact ⟨rfl, rfl, ⟨h1.1, h1.2.2.1, h1.2.2.2.1⟩, rfl, ⟨h2.1, h2.2.1⟩⟩

/-- C2: a successful `reader_joined` walks the dirty list: every listed cell
has its stale reader payload freed (`read_ptr` no longer allocated), its
`read_ptr` set to `write_ptr` and its `next_dirty` cleared; cells off the
list are untouched; the free counter rises by the dirty-list length;
`first_dirty` is cleared, the pool returns to quiescent, and afterwards
every cell is aliased (clean). -/
theorem join_claim (p q : Pool T) (hp : Inv p) (hj : p.reader_joined = some q) :
    q.layout_active = false ∧
    q.first_dirty = none ∧
    q.frees = p.frees + (dirtyChain p).length ∧
    (∀ i ∈ dirtyChain p, ∀ c, p.cells[i]? = some c →
        q.cells[i]? = some ⟨c.write_ptr, c.write_ptr, c.read_aux, none⟩ ∧
        hLookup q.heap c.read_ptr = none) ∧
    (∀ i, i ∉ dirtyChain p → q.cells[i]? = p.cells[i]?) ∧
    (∀ c ∈ q.cells, c.write_ptr = c.read_ptr ∧ c.next_dirty = none) := by
  obtain ⟨ds, hchain, hiff, hqact, hqfirst, hfl, hnext, hallocs, hcA, hcF,
    hfrees, hlen, hother, hds, hkeys, hlook_other, hlook_freed, hnone⟩ :=
    join_spec hp hj
  have hdc : dirtyChain p = ds := dirtyChain_eq p hchain
  rw [hdc]
  refine ⟨hqact, hqfirst, hfrees, ?_, hother, join_all_clean hp hj⟩
  intro i hi c hc
  exact ⟨hds i hi c hc, hlook_freed i hi c hc⟩

theorem join_claim_witness :
    demoDirty.reader_joined = some demoJoined ∧
    demoJoined.layout_active = false ∧
    demoJoined.first_dirty = none ∧
    demoJoined.frees = demoDirty.frees + (dirtyChain demoDirty).length ∧
    (∀ c ∈ demoJoined.cells, c.write_ptr = c.read_ptr ∧ c.next_dirty = none) := by
  have hj := join_claim demoDirty demoJoined inv_demoDirty demoDirty_joined
  exact ⟨demoDirty_joined, hj.1, hj.2.1, hj.2.2.1, hj.2.2.2.2.2⟩

/-- C8: the state-machine assertions are fatal: `reader_forked` on a pool
already in `ReaderActive` aborts, `reader_forked` with a non-empty dirty
list aborts, and `reader_joined` on a quiescent pool aborts (`none`: the
call never returns a successor state, so the pool is not modified). -/
theorem state_violations_abort (p : Pool T) :
    (p.layout_active = true → p.reader_forked = none) ∧
    (p.first_dirty ≠ none → p.reader_forked = none) ∧
    (p.layout_active = false → p.reader_joined = none) := by
  refine ⟨?_, ?_, ?_⟩
  · intro hact
    simp [Pool.reader_forked, hact]
  · intro hfd
    unfold Pool.reader_forked
    split
    · rfl
    · rw [if_pos (Option.isSome_iff_ne_none.mpr hfd)]
  · intro hq
    simp [Pool.reader_joined, hq]

theorem state_violations_abort_witness :
    demoForked.reader_forked = none ∧ demoDirty.reader_forked = none ∧
      (emptyPool Nat).reader_joined = none :=
  ⟨(state_violations_abort demoForked).1 rfl,
   (state_violations_abort demoDirty).2.1 (by decide),
   (state_violations_abort (emptyPool Nat)).2.2 rfl⟩

/-- C9: `Scope::read` invokes `f` on the payload reached through
`write_ptr` (the writer view, reflecting in-progress edits), while
`Handle::read` invokes `f` on the payload reached through `read_ptr` (the
reader snapshot); on a dirty cell during `ReaderActive` the two observe
different values. -/
theorem writer_vs_reader_view (p : Pool T) :
    (∀ (h : Nat) (c : Cell) (U : Type) (f : T → U), p.cells[h]? = some c →
      (Pool.read p h f).2 = (hLookup p.heap c.write_ptr).map f ∧
      (handle_read p h f).2 = (hLookup p.heap c.read_ptr).map f) ∧
    demoDirty.layout_active = true ∧
    (∃ c, demoDirty.cells[0]? = some c ∧ c.write_ptr ≠ c.read_ptr) ∧
    (Pool.read demoDirty 0 id).2 = some 8 ∧
    (handle_read demoDirty 0 id).2 = some 7 ∧
    (Pool.read demoDirty 0 id).2 ≠ (handle_read demoDirty 0 id).2 := by
  refine ⟨?_, rfl, ⟨⟨0, 1, none, none⟩, rfl, by decide⟩, rfl, rfl, by decide⟩
  intro h c U f hc
  constructor
  · show (writerView p h).map f = _
    simp only [writerView, hc]
  · show (readerView p h).map f = _
    simp only [readerView, hc]

theorem writer_vs_reader_view_witness :
    (Pool.read demoDirty 0 id).2 = (hLookup demoDirty.heap 1).map id ∧
    (handle_read demoDirty 0 id).2 = (hLookup demoDirty.heap 0).map id := by
  have hw := (writer_vs_reader_view demoDirty).1 0 ⟨0, 1, none, none⟩ Nat id rfl
  exact ⟨hw.1, hw.2⟩

/-- C10: the read-only operations (`Handle::read`, `Scope::read`,
`Handle::has_aux`) are pure: the pool — `layout_active`, `free_list`,
`first_dirty`, the heap, and every field of every cell — is identical
before and after, and the reads return exactly the value `f` produces on
the observed payload. -/
theorem read_ops_frame (U : Type) (p : Pool T) (h : Nat) (f : T → U) :
    ((handle_read p h f).1.layout_active = p.layout_active ∧
     (handle_read p h f).1.free_list = p.free_list ∧
     (handle_read p h f).1.first_dirty = p.first_dirty ∧
     (∀ i : Nat, (handle_read p h f).1.cells[i]? = p.cells[i]?) ∧
     (handle_read p h f).1.heap = p.heap ∧
     (∀ v, readerView p h = some v → (handle_read p h f).2 = some (f v))) ∧
    ((Pool.read p h f).1.layout_active = p.layout_active ∧
     (Pool.read p h f).1.free_list = p.free_list ∧
     (Pool.read p h f).1.first_dirty = p.first_dirty ∧
     (∀ i : Nat, (Pool.read p h f).1.cells[i]? = p.cells[i]?) ∧
     (Pool.read p h f).1.heap = p.heap ∧
     (∀ v, writerView p h = some v → (Pool.read p h f).2 = some (f v))) ∧
    ((has_aux p h).1.layout_active = p.layout_active ∧
     (has_aux p h).1.free_list = p.free_list ∧
     (has_aux p h).1.first_dirty = p.first_dirty ∧
     (∀ i : Nat, (has_aux p h).1.cells[i]? = p.cells[i]?) ∧
     (has_aux p h).1.heap = p.heap) := by
  refine ⟨⟨rfl, rfl, rfl, fun _ => rfl, rfl, ?_⟩,
    ⟨rfl, rfl, rfl, fun _ => rfl, rfl, ?_⟩,
    rfl, rfl, rfl, fun _ => rfl, rfl⟩
  · intro v hv
    show (readerView p h).map f = _
    rw [hv]
    rfl
  · intro v hv
    show (writerView p h).map f = _
    rw [hv]
    rfl

theorem read_ops_frame_witness :
    (handle_read demoDirty 0 (fun x => x * 10)).2 = some 70 ∧
    (Pool.read demoDirty 0 (fun x => x * 10)).2 = some 80 ∧
    (handle_read demoDirty 0 (fun x => x * 10)).1.heap = demoDirty.heap := by
  have hr := read_ops_frame Nat demoDirty 0 (fun x => x * 10)
  exact ⟨hr.1.2.2.2.2.2 7 rfl, hr.2.1.2.2.2.2.2 8 rfl, hr.1.2.2.2.2.1⟩

end Cow

namespace Cow

variable {T : Type}

/-- C3: snapshot stability.  Starting from the state `p` in which
`reader_forked` returned, any sequence of interval operations (`handle`
creation, `write` on any handles, writer-view `read`) leads to a state `q`
in which every handle that existed at the fork observes, through
`Handle::read`'s view, exactly the value it observed at the fork. -/
theorem snapshot_stability (p0 p q : Pool T) (hp0 : Inv p0)
    (hf : p0.reader_forked = some p)
    (hsteps : Relation.ReflTransGen (IStep (T := T)) p q) :
    ∀ h, h < p.cells.length → readerView q h = readerView p h := by
  have hp : Inv p := inv_fork hp0 hf
  have hact : p.layout_active = true := by
    obtain ⟨-, -, rfl⟩ := reader_forked_some hf
    rfl
  exact (isteps_snapshot hp hact hsteps).2.2.2

theorem snapshot_stability_witness :
    0 < demoForked.cells.length ∧
    readerView demoDirty 0 = readerView demoForked 0 ∧
    readerView demoDirty 0 = some 7 :=
  ⟨by decide,
   snapshot_stability demoPool demoForked demoDirty inv_demoPool demoPool_forked
     (Relation.ReflTransGen.single (IStep.write demoForked 0 (fun x => x + 1)))
     0 (by decide),
   rfl⟩

/-- C4: in every state reachable from a fresh pool by the public API, clean
cells (`write_ptr == read_ptr`) have a null `next_dirty`; every dirty cell
appears exactly once on the chain starting at `first_dirty`; and the dirty
chain is empty whenever the pool is quiescent. -/
theorem reachable_invariants (p : Pool T) (hr : Reachable p) :
    (∀ c ∈ p.cells, c.write_ptr = c.read_ptr → c.next_dirty = none) ∧
    (∀ i c, p.cells[i]? = some c → c.write_ptr ≠ c.read_ptr →
        List.count i (dirtyChain p) = 1) ∧
    (p.layout_active = false → dirtyChain p = []) := by
  have hp := inv_reachable hr
  obtain ⟨ds, hchain, hdirty, hcomp⟩ := hp.chain
  have hdc : dirtyChain p = ds := dirtyChain_eq p hchain
  refine ⟨hp.clean_next, ?_, ?_⟩
  · intro i c hc hd
    rw [hdc]
    exact List.count_eq_one_of_mem (chainIs_nodup hchain) (hcomp i c hc hd)
  · intro hq
    rw [hdc]
    have hfd := hp.quiescent hq
    rw [hfd] at hchain
    cases hchain
    rfl

theorem reachable_invariants_witness :
    demoDirty.cells[0]? = some ⟨0, 1, none, none⟩ ∧
    List.count 0 (dirtyChain demoDirty) = 1 := by
  have hr := reachable_invariants demoDirty reachable_demoDirty
  exact ⟨rfl, hr.2.1 0 ⟨0, 1, none, none⟩ rfl (by decide)⟩

/-- C6: publish atomicity.  Immediately after a successful `reader_joined`,
`Handle::read` and `Scope::read` invoke `f` on the same payload for every
handle: the reader view and the writer view coincide. -/
theorem publish_atomicity (p q : Pool T) (hp : Inv p)
    (hj : p.reader_joined = some q) :
    ∀ (h : Nat) (U : Type) (f : T → U),
      (handle_read q h f).2 = (Pool.read q h f).2 := by
  intro h U f
  show (readerView q h).map f = (writerView q h).map f
  suffices hv : readerView q h = writerView q h by rw [hv]
  unfold readerView writerView
  cases hgq : q.cells[h]? with
  | none => rfl
  | some cm =>
    show hLookup q.heap cm.read_ptr = hLookup q.heap cm.write_ptr
    rw [(join_all_clean hp hj cm (mem_of_getElem? hgq)).1]

theorem publish_atomicity_witness :
    (handle_read demoJoined 0 id).2 = (Pool.read demoJoined 0 id).2 ∧
    (handle_read demoJoined 0 id).2 = some 8 :=
  ⟨publish_atomicity demoDirty demoJoined inv_demoDirty demoDirty_joined 0 Nat id,
   rfl⟩

/-- C5 (code bug): on pool destruction every payload is freed exactly once
(the aliased payload of a clean cell is freed a single time, so the heap
empties and `frees` counts one free per aliased cell and two per dirty
cell), but the `HandleData` cell records malloc'd by `Scope::handle` are
never freed: `free_handle` releases only the payloads, so after
`ScopeResource::drop` every cell record remains allocated
(`cellFrees = 0` while `cellAllocs` counts every created cell). -/
theorem drop_leaks_cell_records :
    (dropPool demoPool2).heap = [] ∧
    (dropPool demoPool2).frees = 2 ∧
    (dropPool demoPool2).cellAllocs = 2 ∧
    (dropPool demoPool2).cellFrees = 0 ∧
    (dropPool demoDirty).heap = [] ∧
    (dropPool demoDirty).frees = 2 ∧
    (dropPool demoDirty).cellAllocs = 1 ∧
    (dropPool demoDirty).cellFrees = 0 :=
  ⟨rfl, rfl, rfl, rfl, rfl, rfl, rfl, rfl⟩

end Cow

namespace Cow

variable {T : Type}

/-- C7: dirty-set minimality.  From a quiescent well-formed pool with two
distinct clean handles, `fork; write h₁; write h₁; write h₂; join` allocates
exactly two payload clones — one per distinct handle written, none for the
repeated write — and the join frees exactly two payloads. -/
theorem dirty_set_minimality (p : Pool T) (hp : Inv p)
    (hq : p.layout_active = false)
    (h1 h2 : Nat) (c1 c2 : Cell) (f1 f2 f3 : T → T)
    (hne : h1 ≠ h2)
    (hc1 : p.cells[h1]? = some c1) (hclean1 : c1.write_ptr = c1.read_ptr)
    (hc2 : p.cells[h2]? = some c2) (hclean2 : c2.write_ptr = c2.read_ptr) :
    ∃ pf, p.reader_forked = some pf ∧
      (pf.write h1 f1).allocs = p.allocs + 1 ∧
      ((pf.write h1 f1).write h1 f2).allocs = p.allocs + 1 ∧
      (((pf.write h1 f1).write h1 f2).write h2 f3).allocs = p.allocs + 2 ∧
      ∃ qj, (((pf.write h1 f1).write h1 f2).write h2 f3).reader_joined = some qj ∧
        qj.allocs = p.allocs + 2 ∧
        qj.frees = p.frees + 2 := by
  have hfd : p.first_dirty = none := hp.quiescent hq
  have hfork : p.reader_forked = some { p with layout_active := true } := by
    simp [Pool.reader_forked, hq, hfd]
  have hInvPf : Inv { p with layout_active := true } := inv_fork hp hfork
  have hl1t : h1 < p.cells.length := (List.getElem?_eq_some.mp hc1).1
  have hl2t : h2 < p.cells.length := (List.getElem?_eq_some.mp hc2).1
  have hmem1 : c1 ∈ p.cells := mem_of_getElem? hc1
  have hmem2 : c2 ∈ p.cells := mem_of_getElem? hc2
  have hr1 : c1.read_ptr < p.next_addr := (inv_cell_ptr_lt hp hmem1).1
  have hr2 : c2.read_ptr < p.next_addr := (inv_cell_ptr_lt hp hmem2).1
  obtain ⟨v1, hv1⟩ := Option.isSome_iff_exists.mp (hp.dom_read c1 hmem1)
  obtain ⟨v2, hv2⟩ := Option.isSome_iff_exists.mp (hp.dom_read c2 hmem2)
  have hw1 :
      Pool.write { p with layout_active := true } h1 f1 =
        { p with layout_active := true,
                 heap := (p.next_addr, f1 v1) :: p.heap,
                 next_addr := p.next_addr + 1,
                 allocs := p.allocs + 1,
                 cells := p.cells.set h1
                   ⟨c1.read_ptr, p.next_addr, c1.read_aux, p.first_dirty⟩,
                 first_dirty := some h1 } := by
    rw [write_clean_active { p with layout_active := true } h1 f1 c1 v1 hc1 rfl
      hclean1.symm hv1]
  have hcellA : (p.cells.set h1
      ⟨c1.read_ptr, p.next_addr, c1.read_aux, p.first_dirty⟩)[h1]? =
      some ⟨c1.read_ptr, p.next_addr, c1.read_aux, p.first_dirty⟩ :=
    List.getElem?_set_self hl1t
  have hSetStep : hSet ((p.next_addr, f1 v1) :: p.heap) p.next_addr (f2 (f1 v1)) =
      (p.next_addr, f2 (f1 v1)) :: p.heap := by
    simp [hSet]
  have hw2 :
      Pool.write
        { p with layout_active := true,
                 heap := (p.next_addr, f1 v1) :: p.heap,
                 next_addr := p.next_addr + 1,
                 allocs := p.allocs + 1,
                 cells := p.cells.set h1
                   ⟨c1.read_ptr, p.next_addr, c1.read_aux, p.first_dirty⟩,
                 first_dirty := some h1 }
        h1 f2 =
        { p with layout_active := true,
                 heap := (p.next_addr, f2 (f1 v1)) :: p.heap,
                 next_addr := p.next_addr + 1,
                 allocs := p.allocs + 1,
                 cells := p.cells.set h1
                   ⟨c1.read_ptr, p.next_addr, c1.read_aux, p.first_dirty⟩,
                 first_dirty := some h1 } := by
    rw [write_no_cow
      { p with layout_active := true,
               heap := (p.next_addr, f1 v1) :: p.heap,
               next_addr := p.next_addr + 1,
               allocs := p.allocs + 1,
               cells := p.cells.set h1
                 ⟨c1.read_ptr, p.next_addr, c1.read_aux, p.first_dirty⟩,
               first_dirty := some h1 }
      h1 f2 ⟨c1.read_ptr, p.next_addr, c1.read_aux, p.first_dirty⟩ (f1 v1)
      hcellA
      (by intro hco; exact absurd hco.2 (Nat.ne_of_lt hr1))
      (by show hLookup ((p.next_addr, f1 v1) :: p.heap) p.next_addr = some (f1 v1)
          simp [hLookup])]
    rw [hSetStep]
  have hcellB : (p.cells.set h1
      ⟨c1.read_ptr, p.next_addr, c1.read_aux, p.first_dirty⟩)[h2]? = some c2 := by
    rw [List.getElem?_set_ne hne]
    exact hc2
  have hlookB : hLookup ((p.next_addr, f2 (f1 v1)) :: p.heap) c2.read_ptr =
      some v2 := by
    simp [hLookup, Nat.ne_of_lt hr2, hv2]
  have hw3 :
      Pool.write
        { p with layout_active := true,
                 heap := (p.next_addr, f2 (f1 v1)) :: p.heap,
                 next_addr := p.next_addr + 1,
                 allocs := p.allocs + 1,
                 cells := p.cells.set h1
                   ⟨c1.read_ptr, p.next_addr, c1.read_aux, p.first_dirty⟩,
                 first_dirty := some h1 }
        h2 f3 =
        { p with layout_active := true,
                 heap := (p.next_addr + 1, f3 v2) ::
                   (p.next_addr, f2 (f1 v1)) :: p.heap,
                 next_addr := p.next_addr + 1 + 1,
                 allocs := p.allocs + 1 + 1,
                 cells := (p.cells.set h1
                     ⟨c1.read_ptr, p.next_addr, c1.read_aux, p.first_dirty⟩).set h2
                   ⟨c2.read_ptr, p.next_addr + 1, c2.read_aux, some h1⟩,
                 first_dirty := some h2 } := by
    rw [write_clean_active
      { p with layout_active := true,
               heap := (p.next_addr, f2 (f1 v1)) :: p.heap,
               next_addr := p.next_addr + 1,
               allocs := p.allocs + 1,
               cells := p.cells.set h1
                 ⟨c1.read_ptr, p.next_addr, c1.read_aux, p.first_dirty⟩,
               first_dirty := some h1 }
      h2 f3 c2 v2 hcellB rfl hclean2.symm hlookB]
  refine ⟨{ p with layout_active := true }, hfork, ?_, ?_, ?_, ?_⟩
  · rw [hw1]
  · rw [hw1, hw2]
  · rw [hw1, hw2, hw3]
  · have hInv3 : Inv
        { p with layout_active := true,
                 heap := (p.next_addr + 1, f3 v2) ::
                   (p.next_addr, f2 (f1 v1)) :: p.heap,
                 next_addr := p.next_addr + 1 + 1,
                 allocs := p.allocs + 1 + 1,
                 cells := (p.cells.set h1
                     ⟨c1.read_ptr, p.next_addr, c1.read_aux, p.first_dirty⟩).set h2
                   ⟨c2.read_ptr, p.next_addr + 1, c2.read_aux, some h1⟩,
                 first_dirty := some h2 } := by
      rw [← hw3, ← hw2, ← hw1]
      exact inv_write (inv_write (inv_write hInvPf h1 f1) h1 f2) h2 f3
    obtain ⟨qj, hjoin⟩ : ∃ qj,
        Pool.reader_joined
          { p with layout_active := true,
                   heap := (p.next_addr + 1, f3 v2) ::
                     (p.next_addr, f2 (f1 v1)) :: p.heap,
                   next_addr := p.next_addr + 1 + 1,
                   allocs := p.allocs + 1 + 1,
                   cells := (p.cells.set h1
                       ⟨c1.read_ptr, p.next_addr, c1.read_aux, p.first_dirty⟩).set h2
                     ⟨c2.read_ptr, p.next_addr + 1, c2.read_aux, some h1⟩,
                   first_dirty := some h2 } = some qj :=
      ⟨_, reader_joined_of_active
        (p := { p with layout_active := true,
                       heap := (p.next_addr + 1, f3 v2) ::
                         (p.next_addr, f2 (f1 v1)) :: p.heap,
                       next_addr := p.next_addr + 1 + 1,
                       allocs := p.allocs + 1 + 1,
                       cells := (p.cells.set h1
                           ⟨c1.read_ptr, p.next_addr, c1.read_aux, p.first_dirty⟩).set h2
                         ⟨c2.read_ptr, p.next_addr + 1, c2.read_aux, some h1⟩,
                       first_dirty := some h2 }) rfl⟩
    obtain ⟨ds, hchainJ, hiffJ, hqactJ, hqfirstJ, hflJ, hnextJ, hallocsJ, hcAJ,
      hcFJ, hfreesJ, hlenJ, hotherJ, hdsJ, hkeysJ, hloJ, hlfJ, hnoneJ⟩ :=
      join_spec hInv3 hjoin
    have hchain2 : ChainIs ((p.cells.set h1
        ⟨c1.read_ptr, p.next_addr, c1.read_aux, p.first_dirty⟩).set h2
        ⟨c2.read_ptr, p.next_addr + 1, c2.read_aux, some h1⟩) (some h2) [h2, h1] := by
      refine ChainIs.cons
        (List.getElem?_set_self (by rw [List.length_set]; exact hl2t))
        (ChainIs.cons
          (c := ⟨c1.read_ptr, p.next_addr, c1.read_aux, p.first_dirty⟩) ?_ ?_)
      · show ((p.cells.set h1
            ⟨c1.read_ptr, p.next_addr, c1.read_aux, p.first_dirty⟩).set h2
            ⟨c2.read_ptr, p.next_addr + 1, c2.read_aux, some h1⟩)[h1]? =
          some ⟨c1.read_ptr, p.next_addr, c1.read_aux, p.first_dirty⟩
        rw [List.getElem?_set_ne (Ne.symm hne)]
        exact List.getElem?_set_self hl1t
      · show ChainIs _ p.first_dirty []
        rw [hfd]
        exact ChainIs.nil
    have hds2 : ds = [h2, h1] := chainIs_det hchainJ hchain2
    refine ⟨qj, ?_, ?_, ?_⟩
    · rw [hw1, hw2, hw3]
      exact hjoin
    · rw [hallocsJ]
    · rw [hfreesJ, hds2]
      rfl

theorem dirty_set_minimality_witness :
    ∃ pf, demoPool2.reader_forked = some pf ∧
      (pf.write 0 (fun x => x + 1)).allocs = demoPool2.allocs + 1 ∧
      ((pf.write 0 (fun x => x + 1)).write 0 (fun x => x + 1)).allocs =
        demoPool2.allocs + 1 ∧
      (((pf.write 0 (fun x => x + 1)).write 0 (fun x => x + 1)).write 1
          (fun x => x * 2)).allocs = demoPool2.allocs + 2 ∧
      ∃ qj, (((pf.write 0 (fun x => x + 1)).write 0 (fun x => x + 1)).write 1
          (fun x => x * 2)).reader_joined = some qj ∧
        qj.allocs = demoPool2.allocs + 2 ∧
        qj.frees = demoPool2.frees + 2 :=
  dirty_set_minimality demoPool2 inv_demoPool2 rfl 0 1 ⟨0, 0, none, none⟩
    ⟨1, 1, none, none⟩ (fun x => x + 1) (fun x => x + 1) (fun x => x * 2)
    (by decide) rfl rfl rfl rfl

end Cow
